import Mathlib

/-!
Verification of the `cmd` hierarchical command dispatcher.

The definitions below are a shallow embedding of the package's current
source (the `prefixtree/v2`-based version of `cmd.go`): the tokenizer
(`nextField`, `stripLeadingWhitespace`), the lookup engine (`Lookup`,
`LookupCommand`), the autocomplete engine (`Autocomplete`) and shortcut
registration (`AddShortcut`).

Strings are embedded as lists of characters (`Str`); Go iterates over
runes and all delimiters involved (space, tab, double quote) are ASCII,
so Go's byte-index slicing always happens at rune boundaries and the
rune-list view is faithful.  Go heap pointers (`*Command`, `*Tree`) are
embedded as indices into a `Forest` holding every allocated command and
tree, so that pointer identity and in-place mutation are represented
exactly.

The `prefixtree` package is an external dependency whose source is not
part of this repository; its two operations used by the code
(`FindValue`, `FindKeyValues`) are modelled from the spec's contract for
the Prefix Index (spec section 4.2).  Likewise `strings.Fields` and
`sort.SearchStrings` from the Go standard library are modelled from
their documented contracts.

Loops in the source that walk the remaining input are embedded with an
explicit iteration bound (`fuel`); every `fuel` argument used by a
top-level entry point is saturated (one unit per remaining character,
which the congruence lemmas below show is enough, since every loop
iteration consumes at least one character of the remainder).  The
autocomplete loop of the source can fail to terminate on degenerate
trees (a subtree registered under its own empty name), so its fuel is
kept as an explicit parameter.
-/

namespace Cmd

/-- Strings as rune lists (Go iterates over runes). -/
abbrev Str := List Char

/-- Convert a Lean string literal into the rune-list embedding. -/
def strChars (s : String) : Str := s.data

/-! ## Tokenizer (cmd.go: `stripLeadingWhitespace`, `nextField`) -/

/-- The whitespace test used by the tokenizer: space or tab. -/
def isSpaceTab (c : Char) : Bool := c == ' ' || c == '\t'

/-- cmd.go `stripLeadingWhitespace`: drop leading spaces and tabs. -/
def stripLeadingWhitespace (s : Str) : Str := s.dropWhile isSpaceTab

/-- cmd.go `nextField`: extract the next whitespace-delimited field.  If the
string starts with a double quote, the field is everything up to the next
double quote (exclusive) and the remainder starts after that quote, with
leading whitespace stripped; an unterminated quote consumes the rest of the
string.  Otherwise the field runs up to the first space or tab and the
remainder is the rest with leading whitespace stripped.  `nextField` itself
does not strip leading whitespace from its input. -/
def nextField (s : Str) : Str × Str :=
  match s with
  | [] => ([], [])
  | c :: rest =>
    if c = '"' then
      match rest.dropWhile (fun x => x != '"') with
      | [] => (rest, [])
      | _ :: tail => (rest.takeWhile (fun x => x != '"'), stripLeadingWhitespace tail)
    else
      match (c :: rest).dropWhile (fun x => !(isSpaceTab x)) with
      | [] => (c :: rest, [])
      | d :: after => ((c :: rest).takeWhile (fun x => !(isSpaceTab x)),
                       stripLeadingWhitespace (d :: after))

/-! ## Data model (cmd.go: `Command`, `Tree`, `Node`, the forest of heap
allocations) -/

/-- cmd.go `CommandDescriptor` (the `Data` payload is opaque to the core and
omitted). -/
structure CommandDescriptor where
  name : Str
  brief : Str
  description : Str
  usage : Str
deriving DecidableEq, Repr

/-- cmd.go `TreeDescriptor` (the `Data` payload is opaque to the core and
omitted). -/
structure TreeDescriptor where
  name : Str
  brief : Str
  description : Str
  usage : Str
deriving DecidableEq, Repr

/-- A reference to a heap-allocated node: Go's `Node` interface value, which
is either a `*Command` or a `*Tree`. -/
inductive NodeRef where
  | cmd (id : Nat)
  | tree (id : Nat)
deriving DecidableEq, Repr

/-- cmd.go `Command`: descriptor plus the mutable sorted shortcut list. -/
structure Command where
  descr : CommandDescriptor
  shortcuts : List Str
deriving DecidableEq, Repr

/-- cmd.go `Tree`: descriptor, child command and subtree references, and the
prefix index `pt` mapping keys (names and shortcuts) to nodes. -/
structure Tree where
  descr : TreeDescriptor
  commands : List Nat
  subtrees : List Nat
  pt : List (Str × NodeRef)
deriving DecidableEq, Repr

/-- The tree's name (Go promoted field `Tree.Name`). -/
def Tree.name (t : Tree) : Str := t.descr.name

/-- The heap of all allocated commands and trees; `NodeRef` indices point
into these lists. -/
structure Forest where
  cmds : List Command
  trees : List Tree
deriving DecidableEq, Repr

/-- A tree with no entries, used as the (never reached in well-formed
forests) default when dereferencing a tree id. -/
def emptyTree : Tree :=
  { descr := { name := [], brief := [], description := [], usage := [] },
    commands := [], subtrees := [], pt := [] }

/-- Dereference a tree id in the forest. -/
def treeAt (F : Forest) (tid : Nat) : Tree := F.trees.getD tid emptyTree

/-- Errors of the package: `ErrAmbiguous`, `ErrNotFound`, and the
`invalid shortcut` error returned by `AddShortcut`. -/
inductive CmdErr where
  | ambiguous
  | notFound
  | invalidShortcut
deriving DecidableEq, Repr

/-! ## Prefix index (external `prefixtree/v2` dependency, modelled from the
spec) -/

/-- Modelled from the spec: `Find` of the Prefix Index (the `prefixtree`
package is an external dependency whose source is not in this repository).
Per spec section 4.2: an empty query fails with NotFound; a query exactly
equal to a stored key returns that key's node (exact match always wins);
otherwise the stored keys having the query as a proper prefix are collected,
and the lookup succeeds only if there is exactly one (more than one is
ambiguous, none is not-found). -/
def ptFindValue (pt : List (Str × NodeRef)) (q : Str) : Except CmdErr NodeRef :=
  if q = [] then .error .notFound
  else
    match pt.find? (fun e => e.1 == q) with
    | some e => .ok e.2
    | none =>
      match pt.filter (fun e => q.isPrefixOf e.1) with
      | [] => .error .notFound
      | [e] => .ok e.2
      | _ => .error .ambiguous

/-- Lexicographic order on rune lists; Go compares strings bytewise, and
UTF-8 byte order agrees with code-point order. -/
def strLt : Str → Str → Bool
  | [], [] => false
  | [], _ :: _ => true
  | _ :: _, [] => false
  | a :: as, b :: bs => if a < b then true else if b < a then false else strLt as bs

/-- Non-strict lexicographic order derived from `strLt`. -/
def strLe (a b : Str) : Bool := !(strLt b a)

/-- Insert an element before the first list entry that is not below it
(insertion step of an insertion sort). -/
def insertLe {α : Type} (le : α → α → Bool) (a : α) : List α → List α
  | [] => [a]
  | x :: rest => if le a x then a :: x :: rest else x :: insertLe le a rest

/-- Insertion sort with respect to a boolean comparison. -/
def sortLe {α : Type} (le : α → α → Bool) : List α → List α
  | [] => []
  | a :: rest => insertLe le a (sortLe le rest)

/-- Comparison of prefix-index entries by key. -/
def keyLe (a b : Str × NodeRef) : Bool := strLe a.1 b.1

/-- Modelled from the spec: `FindKeyValues` of the Prefix Index (the
`prefixtree` package is an external dependency whose source is not in this
repository).  Per spec section 4.2: every stored key of which the query is a
prefix (including exact equality), as (key, node) pairs sorted
lexicographically by key. -/
def ptFindKeyValues (pt : List (Str × NodeRef)) (q : Str) : List (Str × NodeRef) :=
  sortLe keyLe (pt.filter (fun e => q.isPrefixOf e.1))

/-! ## Lookup engine (cmd.go: `Tree.Lookup`, `Tree.LookupCommand`) -/

/-- The loop of cmd.go `Tree.Lookup`: resolve the current field in the
current prefix index; prefix-index errors abort the whole lookup; a command
ends the descent immediately; a subtree ends the descent when no input
remains, and otherwise the next field is consumed from the remainder and
resolved against the subtree's own prefix index.  The loop consumes at least
one character of the remainder per iteration, so saturated fuel (one unit
per remaining character, plus one) makes this total function agree with the
source's unbounded loop (`lookupLoopF_congr` below). -/
def lookupLoopF (F : Forest) : Nat → List (Str × NodeRef) → Str → Str →
    Except CmdErr (NodeRef × Str)
  | 0, _, _, _ => .error .notFound
  | fuel+1, pt, field, remain =>
    match ptFindValue pt field with
    | .error e => .error e
    | .ok v =>
      match v with
      | .cmd cid => .ok (.cmd cid, remain)
      | .tree tid =>
        if remain = [] then .ok (.tree tid, remain)
        else
          let fr := nextField remain
          lookupLoopF F fuel (treeAt F tid).pt fr.1 fr.2

/-- The argument loop of cmd.go `Tree.Lookup`: tokenize all remaining text
into the argument list, in left-to-right order.  As above, one fuel unit per
remaining character saturates the loop (`collectArgsF_congr` below). -/
def collectArgsF : Nat → Str → List Str
  | 0, _ => []
  | fuel+1, remain =>
    if remain = [] then []
    else
      let fr := nextField remain
      fr.1 :: collectArgsF fuel fr.2

/-- The argument loop at saturated fuel. -/
def collectArgs (remain : Str) : List Str := collectArgsF remain.length remain

/-- Wrap up the result of the lookup loop: on success, tokenize the leftover
text into the argument list. -/
def lookupFinish : Except CmdErr (NodeRef × Str) → Except CmdErr (NodeRef × List Str)
  | .error e => .error e
  | .ok (n, remain) => .ok (n, collectArgs remain)

/-- cmd.go `Tree.Lookup`: tokenize the first field of the line (with leading
whitespace stripped); an empty first field fails with NotFound; otherwise
run the descent loop and tokenize the leftover text into arguments. -/
def Lookup (F : Forest) (tid : Nat) (line : Str) : Except CmdErr (NodeRef × List Str) :=
  let fr := nextField (stripLeadingWhitespace line)
  if fr.1 = [] then .error .notFound
  else lookupFinish (lookupLoopF F (fr.2.length + 1) (treeAt F tid).pt fr.1 fr.2)

/-- cmd.go `Tree.LookupCommand`: like `Lookup`, but a resolved subtree is
reported as NotFound; only commands are returned. -/
def LookupCommand (F : Forest) (tid : Nat) (line : Str) : Except CmdErr (Nat × List Str) :=
  match Lookup F tid line with
  | .error e => .error e
  | .ok (.cmd cid, args) => .ok (cid, args)
  | .ok (.tree _, _) => .error .notFound

/-! ## Registration (cmd.go: `NewTree`, `AddCommand`, `AddSubtree`,
`AddShortcut`) -/

/-- The empty heap. -/
def NewForest : Forest := { cmds := [], trees := [] }

/-- cmd.go `NewTree`: allocate a fresh tree; returns the updated heap and
the new tree's id. -/
def NewTree (F : Forest) (d : TreeDescriptor) : Forest × Nat :=
  ({ F with trees := F.trees ++ [{ descr := d, commands := [], subtrees := [], pt := [] }] },
   F.trees.length)

/-- cmd.go `Tree.AddCommand`: allocate a command, append it to the tree's
command list and register its name in the tree's prefix index. -/
def AddCommand (F : Forest) (tid : Nat) (d : CommandDescriptor) : Forest × Nat :=
  let cid := F.cmds.length
  let t := treeAt F tid
  let t' : Tree := { t with commands := t.commands ++ [cid],
                            pt := t.pt ++ [(d.name, NodeRef.cmd cid)] }
  ({ cmds := F.cmds ++ [{ descr := d, shortcuts := [] }],
     trees := F.trees.set tid t' }, cid)

/-- cmd.go `Tree.AddSubtree`: allocate a subtree, append it to the tree's
subtree list and register its name in the tree's prefix index. -/
def AddSubtree (F : Forest) (tid : Nat) (d : TreeDescriptor) : Forest × Nat :=
  let sid := F.trees.length
  let F' : Forest :=
    { F with trees := F.trees ++ [{ descr := d, commands := [], subtrees := [], pt := [] }] }
  let t := treeAt F' tid
  let t' : Tree := { t with subtrees := t.subtrees ++ [sid],
                            pt := t.pt ++ [(d.name, NodeRef.tree sid)] }
  ({ F' with trees := F'.trees.set tid t' }, sid)

/-- The whitespace class of Go's `unicode.IsSpace` (the exact character set
of the White_Space property as used by `strings.Fields`). -/
def isGoSpace (c : Char) : Bool :=
  c == '\t' || c == '\n' || c == '\x0b' || c == '\x0c' || c == '\r' || c == ' ' ||
  c == '\x85' || c == '\xa0' || c == '\u1680' ||
  ('\u2000' ≤ c && c ≤ '\u200a') || c == '\u2028' || c == '\u2029' ||
  c == '\u202f' || c == '\u205f' || c == '\u3000'

/-- Modelled from the contract of Go's standard library `strings.Fields`:
split the string around runs of whitespace, returning the maximal runs of
non-whitespace characters.  One fuel unit per character saturates the
loop. -/
def goFieldsF : Nat → Str → List Str
  | 0, _ => []
  | fuel+1, s =>
    let s' := s.dropWhile isGoSpace
    if s' = [] then []
    else s'.takeWhile (fun c => !(isGoSpace c)) ::
         goFieldsF fuel (s'.dropWhile (fun c => !(isGoSpace c)))

/-- `strings.Fields` at saturated fuel. -/
def goFields (s : Str) : List Str := goFieldsF s.length s

/-- Modelled from the contract of Go's standard library
`sort.SearchStrings`: the smallest index at which the value could be
inserted while keeping a sorted slice sorted, i.e. (on sorted input) the
number of leading entries strictly below the value. -/
def searchStrings (l : List Str) (s : Str) : Nat :=
  (l.takeWhile (fun x => strLt x s)).length

/-- The shortcut insertion of cmd.go `Tree.AddShortcut`: insert at the index
computed by `sort.SearchStrings` (Go appends a placeholder, shifts the tail
up with `copy`, and overwrites slot `i`, which amounts to inserting at
`i`). -/
def insertShortcut (s : Str) (l : List Str) : List Str :=
  let i := searchStrings l s
  l.take i ++ s :: l.drop i

/-- Update the command stored at an id (Go mutates `*Command` in place). -/
def modifyCmd (cs : List Command) (cid : Nat) (f : Command → Command) : List Command :=
  match cs.get? cid with
  | some c => cs.set cid (f c)
  | none => cs

/-- cmd.go `Tree.AddShortcut`: reject a shortcut that is not exactly one
whitespace-delimited field; resolve the target path with `LookupCommand`
(so a target resolving to a subtree is rejected with NotFound); insert the
shortcut into the command's sorted shortcut list; and register the shortcut
in this tree's prefix index. -/
def AddShortcut (F : Forest) (tid : Nat) (shortcut target : Str) : Except CmdErr Forest :=
  if (goFields shortcut).length ≠ 1 then .error .invalidShortcut
  else
    match LookupCommand F tid target with
    | .error e => .error e
    | .ok (cid, _) =>
      let cmds' := modifyCmd F.cmds cid
        (fun c => { c with shortcuts := insertShortcut shortcut c.shortcuts })
      let t := treeAt F tid
      let trees' := F.trees.set tid ({ t with pt := t.pt ++ [(shortcut, NodeRef.cmd cid)] })
      Except.ok { cmds := cmds', trees := trees' }

/-! ## Autocomplete engine (cmd.go: `Tree.Autocomplete`) -/

/-- The loop of cmd.go `Tree.Autocomplete`.  At the current prefix index the
candidates for the current field are enumerated; no candidate yields no
suggestions; several candidates yield no suggestions if typed input remains
and otherwise every candidate key prefixed by the accumulated path; a single
command candidate yields its full path unless typed input remains; a single
subtree candidate yields its full path when no input remains and the typed
field is not the subtree's exact name, and otherwise the loop descends into
the subtree, extending the accumulated path by the matched key and a space.
The source's loop can run forever on degenerate trees (an empty-named
subtree cycle), so the fuel is an honest explicit bound here. -/
def autocompleteLoopF (F : Forest) :
    Nat → List (Str × NodeRef) → Str → Str → Str → List Str
  | 0, _, _, _, _ => []
  | fuel+1, pt, acc, field, remain =>
    match ptFindKeyValues pt field with
    | [] => []
    | m :: rest =>
      if rest ≠ [] then
        if remain ≠ [] then []
        else (m :: rest).map (fun e => acc ++ e.1)
      else
        match m.2 with
        | NodeRef.cmd _ =>
          if remain ≠ [] then [] else [acc ++ m.1]
        | NodeRef.tree tid =>
          let sub := treeAt F tid
          if remain = [] ∧ field ≠ sub.name then [acc ++ m.1]
          else
            let fr := nextField remain
            autocompleteLoopF F fuel sub.pt (acc ++ m.1 ++ [' ']) fr.1 fr.2

/-- cmd.go `Tree.Autocomplete`: tokenize the first field (with leading
whitespace stripped) and run the candidate loop starting from this tree's
prefix index with an empty accumulated path. -/
def Autocomplete (F : Forest) (tid : Nat) (line : Str) (fuel : Nat) : List Str :=
  let fr := nextField (stripLeadingWhitespace line)
  autocompleteLoopF F fuel (treeAt F tid).pt [] fr.1 fr.2

/-! ## Shortcut registration sequences (for the sortedness invariant) -/

/-- One `AddShortcut` call: tree level, shortcut string, target path. -/
structure ShortcutOp where
  tid : Nat
  shortcut : Str
  target : Str

/-- Apply one `AddShortcut` call; a failed call leaves the forest unchanged
(the source returns before any mutation on every error path). -/
def applyShortcut (F : Forest) (op : ShortcutOp) : Forest :=
  match AddShortcut F op.tid op.shortcut op.target with
  | .ok F' => F'
  | .error _ => F

/-- Apply a sequence of `AddShortcut` calls in order. -/
def applyShortcuts (F : Forest) (ops : List ShortcutOp) : Forest :=
  ops.foldl applyShortcut F

/-- `le`-chain head check: the element is below the head of the list (or the
list is empty). -/
def headLe {α : Type} (le : α → α → Bool) (a : α) : List α → Bool
  | [] => true
  | b :: _ => le a b

/-- A list is a `le`-chain: every adjacent pair is ordered. -/
def chainLe {α : Type} (le : α → α → Bool) : List α → Bool
  | [] => true
  | a :: l => headLe le a l && chainLe le l

/-- Shortcut lists in lexicographic (nondecreasing) order. -/
def sortedStr (l : List Str) : Bool := chainLe strLe l

/-- Every command of the forest has its shortcut list in lexicographic
order. -/
abbrev SortedForest (F : Forest) : Prop := ∀ c ∈ F.cmds, sortedStr c.shortcuts = true

/-! ## Sample forests for concrete witnesses -/

/-- Tree descriptor with the given name and no display text. -/
def dTree (s : String) : TreeDescriptor :=
  { name := strChars s, brief := [], description := [], usage := [] }

/-- Command descriptor with the given name and no display text. -/
def dCmd (s : String) : CommandDescriptor :=
  { name := strChars s, brief := [], description := [], usage := [] }

/-- A small forest: root tree 0 with command `quit` and subtree `file`
(tree 1) holding commands `open` (id 0) and `close` (id 1); `quit` is
command id 2. -/
def sampleForest : Forest :=
  let r0 := NewTree NewForest (dTree "root")
  let r1 := AddSubtree r0.1 0 (dTree "file")
  let r2 := AddCommand r1.1 1 (dCmd "open")
  let r3 := AddCommand r2.1 1 (dCmd "close")
  let r4 := AddCommand r3.1 0 (dCmd "quit")
  r4.1

/-! ## List helper lemmas -/

theorem dropWhile_all {p : α → Bool} {l : List α} (h : ∀ x ∈ l, p x = true) :
    l.dropWhile p = [] := by
  induction l with
  | nil => rfl
  | cons a l ih =>
    simp only [List.dropWhile, h a (by simp)]
    exact ih fun x hx => h x (by simp [hx])

theorem takeWhile_all {p : α → Bool} {l : List α} (h : ∀ x ∈ l, p x = true) :
    l.takeWhile p = l := by
  induction l with
  | nil => rfl
  | cons a l ih =>
    simp only [List.takeWhile, h a (by simp)]
    exact congrArg (a :: ·) (ih fun x hx => h x (by simp [hx]))

theorem dropWhile_append_all {p : α → Bool} {l₁ : List α} (l₂ : List α)
    (h : ∀ x ∈ l₁, p x = true) : (l₁ ++ l₂).dropWhile p = l₂.dropWhile p := by
  induction l₁ with
  | nil => rfl
  | cons a l ih =>
    simp only [List.cons_append, List.dropWhile, h a (by simp)]
    exact ih fun x hx => h x (by simp [hx])

theorem takeWhile_append_all {p : α → Bool} {l₁ : List α} (l₂ : List α)
    (h : ∀ x ∈ l₁, p x = true) : (l₁ ++ l₂).takeWhile p = l₁ ++ l₂.takeWhile p := by
  induction l₁ with
  | nil => rfl
  | cons a l ih =>
    simp only [List.cons_append, List.takeWhile, h a (by simp)]
    exact congrArg (a :: ·) (ih fun x hx => h x (by simp [hx]))

theorem length_dropWhile_le (p : α → Bool) (l : List α) :
    (l.dropWhile p).length ≤ l.length := by
  induction l with
  | nil => simp
  | cons a l ih =>
    simp only [List.dropWhile]
    cases p a
    · simp
    · simp; omega

theorem dropWhile_head_false {p : α → Bool} {l : List α} {d : α} {rest : List α}
    (h : l.dropWhile p = d :: rest) : p d = false := by
  induction l with
  | nil => simp [List.dropWhile] at h
  | cons a l ih =>
    simp only [List.dropWhile] at h
    cases hp : p a with
    | true => rw [hp] at h; exact ih h
    | false => rw [hp] at h; cases h; exact hp

theorem find?_append (p : α → Bool) (l₁ l₂ : List α) :
    (l₁ ++ l₂).find? p = ((l₁.find? p).orElse fun _ => l₂.find? p) := by
  induction l₁ with
  | nil => simp [List.find?]
  | cons a l ih =>
    simp only [List.cons_append, List.find?]
    cases p a <;> simp [ih, Option.orElse]

theorem getD_set_self {l : List α} {i : Nat} (a d : α) (h : i < l.length) :
    (l.set i a).getD i d = a := by
  induction l generalizing i with
  | nil => simp at h
  | cons x l ih =>
    cases i with
    | zero => rfl
    | succ j => exact ih (by simpa using h)

theorem getD_set_ne {l : List α} {i j : Nat} (a d : α) (h : i ≠ j) :
    (l.set i a).getD j d = l.getD j d := by
  induction l generalizing i j with
  | nil => simp [List.set]
  | cons x l ih =>
    cases i with
    | zero => cases j with
      | zero => exact absurd rfl h
      | succ k => rfl
    | succ i' => cases j with
      | zero => rfl
      | succ k => exact ih (fun hc => h (by rw [hc]))

/-! ## Tokenizer lemmas -/

theorem strip_length_le (s : Str) :
    (stripLeadingWhitespace s).length ≤ s.length :=
  length_dropWhile_le _ s

theorem nextField_remain_length {s : Str} (h : s ≠ []) :
    (nextField s).2.length < s.length := by
  match s with
  | [] => exact absurd rfl h
  | c :: rest =>
    show (nextField (c :: rest)).2.length < rest.length + 1
    unfold nextField
    by_cases hc : c = '"'
    · simp only [if_pos hc]
      cases hdw : rest.dropWhile (fun x => x != '"') with
      | nil => simp
      | cons d tail =>
        simp only []
        have h1 : tail.length < (d :: tail).length := by simp
        have h2 : (d :: tail).length ≤ rest.length := by
          rw [← hdw]; exact length_dropWhile_le _ rest
        have := strip_length_le tail
        omega
    · simp only [if_neg hc]
      cases hdw : (c :: rest).dropWhile (fun x => !(isSpaceTab x)) with
      | nil => simp
      | cons d after =>
        simp only []
        have hd : isSpaceTab d = true := by
          have := dropWhile_head_false hdw
          simpa using this
        have h1 : (stripLeadingWhitespace (d :: after)).length ≤ after.length := by
          show ((d :: after).dropWhile isSpaceTab).length ≤ after.length
          simp only [List.dropWhile, hd]
          exact length_dropWhile_le _ after
        have h2 : (d :: after).length ≤ (c :: rest).length := by
          rw [← hdw]; exact length_dropWhile_le _ _
        simp only [List.length_cons] at h2
        omega

/-! ## Fuel congruence: one fuel unit per remaining character saturates the
source's loops -/

theorem collectArgsF_congr :
    ∀ (m n : Nat) (remain : Str), remain.length ≤ m → remain.length ≤ n →
      collectArgsF m remain = collectArgsF n remain := by
  intro m
  induction m with
  | zero =>
    intro n remain hm _
    have : remain = [] := by
      cases remain with
      | nil => rfl
      | cons a l => simp at hm
    subst this
    cases n <;> rfl
  | succ m ih =>
    intro n remain hm hn
    cases remain with
    | nil => cases n <;> rfl
    | cons a l =>
      cases n with
      | zero => simp at hn
      | succ n' =>
        simp only [collectArgsF, if_neg (List.cons_ne_nil a l)]
        have hlt := nextField_remain_length (s := a :: l) (by simp)
        simp only [List.length_cons] at hlt hm hn
        exact congrArg _ (ih n' _ (by omega) (by omega))

theorem lookupLoopF_congr (F : Forest) :
    ∀ (m n : Nat) (pt : List (Str × NodeRef)) (field remain : Str),
      remain.length < m → remain.length < n →
      lookupLoopF F m pt field remain = lookupLoopF F n pt field remain := by
  intro m
  induction m with
  | zero => intro n pt field remain hm; omega
  | succ m ih =>
    intro n pt field remain hm hn
    cases n with
    | zero => omega
    | succ n' =>
      cases hfv : ptFindValue pt field with
      | error e => simp only [lookupLoopF, hfv]
      | ok v =>
        cases v with
        | cmd cid => simp only [lookupLoopF, hfv]
        | tree tid =>
          simp only [lookupLoopF, hfv]
          by_cases hr : remain = []
          · simp [hr]
          · simp only [if_neg hr]
            have hlt := nextField_remain_length hr
            exact ih n' _ _ _ (by omega) (by omega)

/-! ## Lexicographic-order lemmas -/

theorem strLt_asymm : ∀ {a b : Str}, strLt a b = true → strLt b a = false := by
  intro a
  induction a with
  | nil =>
    intro b h
    cases b with
    | nil => simp [strLt] at h
    | cons x xs => simp [strLt]
  | cons x xs ih =>
    intro b h
    cases b with
    | nil => simp [strLt] at h
    | cons y ys =>
      simp only [strLt] at h ⊢
      rcases lt_trichotomy x y with hlt | heq | hgt
      · rw [if_neg (lt_asymm hlt), if_pos hlt]
      · subst heq
        rw [if_neg (lt_irrefl x)] at h ⊢
        rw [if_neg (lt_irrefl x)] at h ⊢
        exact ih h
      · rw [if_neg (lt_asymm hgt), if_pos hgt] at h
        simp at h

theorem strLt_true_le {a b : Str} (h : strLt a b = true) : strLe a b = true := by
  simp [strLe, strLt_asymm h]

theorem strLe_total (a b : Str) : strLe a b = true ∨ strLe b a = true := by
  by_cases h : strLt b a = true
  · right; simp [strLe, strLt_asymm h]
  · left; simp [strLe] at h ⊢; exact h

theorem strLt_append_left : ∀ (p a b : Str), strLt (p ++ a) (p ++ b) = strLt a b := by
  intro p
  induction p with
  | nil => intro a b; rfl
  | cons c cs ih =>
    intro a b
    simp only [List.cons_append, strLt, lt_irrefl, if_neg (lt_irrefl c)]
    exact ih a b

theorem strLe_append_left (p a b : Str) : strLe (p ++ a) (p ++ b) = strLe a b := by
  simp [strLe, strLt_append_left]

/-! ## Chain (sortedness) lemmas -/

theorem chainLe_cons {α : Type} (le : α → α → Bool) (a : α) (l : List α) :
    chainLe le (a :: l) = (headLe le a l && chainLe le l) := rfl

theorem chainLe_map {α β : Type} (le : α → α → Bool) (le' : β → β → Bool)
    (f : α → β) (h : ∀ a b, le a b = true → le' (f a) (f b) = true) :
    ∀ l : List α, chainLe le l = true → chainLe le' (l.map f) = true := by
  intro l
  induction l with
  | nil => intro; rfl
  | cons a l ih =>
    intro hc
    rw [chainLe_cons] at hc
    have h1 : headLe le a l = true := by
      cases hb : headLe le a l
      · rw [hb] at hc; simp at hc
      · rfl
    have h2 : chainLe le l = true := by
      cases hb : chainLe le l
      · rw [hb] at hc; simp at hc
      · rfl
    rw [List.map_cons, chainLe_cons, ih h2, Bool.and_true]
    cases l with
    | nil => rfl
    | cons b l' => exact h a b h1

theorem headLe_insertLe {α : Type} (le : α → α → Bool) (x a : α) (l : List α)
    (h1 : headLe le x l = true) (h2 : le x a = true) :
    headLe le x (insertLe le a l) = true := by
  cases l with
  | nil => exact h2
  | cons y rest =>
    simp only [insertLe]
    by_cases hay : le a y = true
    · simp [hay, headLe, h2]
    · simp only [if_neg hay]
      exact h1

theorem chainLe_insertLe {α : Type} (le : α → α → Bool)
    (htot : ∀ a b, le a b = true ∨ le b a = true) (a : α) :
    ∀ l : List α, chainLe le l = true → chainLe le (insertLe le a l) = true := by
  intro l
  induction l with
  | nil => intro; rfl
  | cons x rest ih =>
    intro hc
    rw [chainLe_cons] at hc
    have h1 : headLe le x rest = true := by
      cases hb : headLe le x rest
      · rw [hb] at hc; simp at hc
      · rfl
    have h2 : chainLe le rest = true := by
      cases hb : chainLe le rest
      · rw [hb] at hc; simp at hc
      · rfl
    simp only [insertLe]
    by_cases hax : le a x = true
    · rw [if_pos hax]
      show (le a x && (headLe le x rest && chainLe le rest)) = true
      rw [hax, h1, h2]
      rfl
    · simp only [if_neg hax]
      have hxa : le x a = true := (htot a x).resolve_left hax
      rw [chainLe_cons, ih h2, Bool.and_true]
      exact headLe_insertLe le x a rest h1 hxa

theorem chainLe_sortLe {α : Type} (le : α → α → Bool)
    (htot : ∀ a b, le a b = true ∨ le b a = true) :
    ∀ l : List α, chainLe le (sortLe le l) = true := by
  intro l
  induction l with
  | nil => rfl
  | cons a rest ih => exact chainLe_insertLe le htot a _ ih

theorem keyLe_total (a b : Str × NodeRef) : keyLe a b = true ∨ keyLe b a = true :=
  strLe_total a.1 b.1

/-- The modelled `FindKeyValues` always returns its candidates sorted by
key. -/
theorem ptFindKeyValues_sorted (pt : List (Str × NodeRef)) (q : Str) :
    chainLe keyLe (ptFindKeyValues pt q) = true :=
  chainLe_sortLe keyLe keyLe_total _

/-! ## Shortcut-insertion lemmas -/

theorem insertShortcut_nil (s : Str) : insertShortcut s [] = [s] := rfl

theorem insertShortcut_cons (s x : Str) (rest : List Str) :
    insertShortcut s (x :: rest) =
      if strLt x s = true then x :: insertShortcut s rest else s :: x :: rest := by
  simp only [insertShortcut, searchStrings, List.takeWhile]
  by_cases hx : strLt x s = true
  · simp only [hx, if_pos rfl, List.length_cons, List.take_succ_cons, List.drop_succ_cons]
    rfl
  · rw [Bool.not_eq_true] at hx
    simp [hx]

theorem headLe_insertShortcut (x s : Str) (l : List Str)
    (h1 : headLe strLe x l = true) (h2 : strLe x s = true) :
    headLe strLe x (insertShortcut s l) = true := by
  cases l with
  | nil => exact h2
  | cons y rest =>
    rw [insertShortcut_cons]
    by_cases hy : strLt y s = true
    · rw [if_pos hy]; exact h1
    · rw [if_neg hy]; exact h2

theorem sortedStr_insertShortcut (s : Str) :
    ∀ l : List Str, sortedStr l = true → sortedStr (insertShortcut s l) = true := by
  intro l
  induction l with
  | nil => intro; rfl
  | cons x rest ih =>
    intro hc
    rw [sortedStr, chainLe_cons] at hc
    have h1 : headLe strLe x rest = true := by
      cases hb : headLe strLe x rest
      · rw [hb] at hc; simp at hc
      · rfl
    have h2 : chainLe strLe rest = true := by
      cases hb : chainLe strLe rest
      · rw [hb] at hc; simp at hc
      · rfl
    rw [insertShortcut_cons]
    by_cases hx : strLt x s = true
    · rw [if_pos hx]
      have ih' : chainLe strLe (insertShortcut s rest) = true := ih h2
      rw [sortedStr, chainLe_cons, ih', Bool.and_true]
      exact headLe_insertShortcut x s rest h1 (strLt_true_le hx)
    · rw [if_neg hx]
      show (strLe s x && (headLe strLe x rest && chainLe strLe rest)) = true
      have hsx : strLe s x = true := by
        rw [Bool.not_eq_true] at hx
        simp [strLe, hx]
      rw [hsx, h1, h2]
      rfl

/-! ## Prefix-index lemmas -/

/-- Appending an entry whose key is not an exact match and not an extension
of the query leaves `Find` unchanged. -/
theorem ptFindValue_append_irrel (pt : List (Str × NodeRef)) (e : Str × NodeRef)
    (q : Str) (h1 : (e.1 == q) = false) (h2 : q.isPrefixOf e.1 = false) :
    ptFindValue (pt ++ [e]) q = ptFindValue pt q := by
  unfold ptFindValue
  by_cases hq : q = []
  · simp [hq]
  · rw [if_neg hq, if_neg hq]
    rw [find?_append]
    have hfe : List.find? (fun e => e.1 == q) [e] = none := by
      simp only [List.find?]
      rw [h1]
    rw [hfe]
    have hfl : List.filter (fun e => q.isPrefixOf e.1) (pt ++ [e]) =
        List.filter (fun e => q.isPrefixOf e.1) pt := by
      rw [List.filter_append]
      have : List.filter (fun e => q.isPrefixOf e.1) [e] = [] := by
        simp only [List.filter]
        rw [h2]
      rw [this, List.append_nil]
    rw [hfl]
    cases List.find? (fun e => e.1 == q) pt with
    | some x => rfl
    | none => rfl

/-- Appending an entry for a fresh key makes `Find` on exactly that key
return the new node. -/
theorem ptFindValue_append_exact (pt : List (Str × NodeRef)) (k : Str) (v : NodeRef)
    (hk : k ≠ []) (h : ∀ e ∈ pt, (e.1 == k) = false) :
    ptFindValue (pt ++ [(k, v)]) k = .ok v := by
  unfold ptFindValue
  rw [if_neg hk, find?_append]
  have hnone : List.find? (fun e => e.1 == k) pt = none := by
    induction pt with
    | nil => rfl
    | cons a l ih =>
      simp only [List.find?]
      rw [h a (by simp)]
      exact ih fun e he => h e (by simp [he])
  rw [hnone]
  have : List.find? (fun e => e.1 == k) [(k, v)] = some (k, v) := by
    simp [List.find?]
  rw [Option.orElse]
  simp [this]

/-! ## Forest-heap lemmas -/

theorem treeAt_set_self (F : Forest) (cs : List Command) (tid : Nat) (t : Tree)
    (h : tid < F.trees.length) :
    treeAt { cmds := cs, trees := F.trees.set tid t } tid = t :=
  getD_set_self t emptyTree h

theorem treeAt_set_ne (F : Forest) (cs : List Command) (tid tid' : Nat) (t : Tree)
    (h : tid ≠ tid') :
    treeAt { cmds := cs, trees := F.trees.set tid t } tid' = treeAt F tid' :=
  getD_set_ne t emptyTree h

/-! ## Step (unfolding) lemmas for the loops -/

theorem lookupLoopF_zero (F : Forest) (pt : List (Str × NodeRef)) (field remain : Str) :
    lookupLoopF F 0 pt field remain = .error .notFound := rfl

theorem lookupLoopF_error (F : Forest) (fuel : Nat) (pt : List (Str × NodeRef))
    (field remain : Str) (e : CmdErr) (h : ptFindValue pt field = .error e) :
    lookupLoopF F (fuel+1) pt field remain = .error e := by
  simp only [lookupLoopF, h]

theorem lookupLoopF_cmd (F : Forest) (fuel : Nat) (pt : List (Str × NodeRef))
    (field remain : Str) (cid : Nat) (h : ptFindValue pt field = .ok (.cmd cid)) :
    lookupLoopF F (fuel+1) pt field remain = .ok (.cmd cid, remain) := by
  simp only [lookupLoopF, h]

theorem lookupLoopF_tree_nil (F : Forest) (fuel : Nat) (pt : List (Str × NodeRef))
    (field : Str) (tid : Nat) (h : ptFindValue pt field = .ok (.tree tid)) :
    lookupLoopF F (fuel+1) pt field [] = .ok (.tree tid, []) := by
  simp [lookupLoopF, h]

theorem lookupLoopF_tree_step (F : Forest) (fuel : Nat) (pt : List (Str × NodeRef))
    (field remain : Str) (tid : Nat) (h : ptFindValue pt field = .ok (.tree tid))
    (hr : remain ≠ []) :
    lookupLoopF F (fuel+1) pt field remain =
      lookupLoopF F fuel (treeAt F tid).pt (nextField remain).1 (nextField remain).2 := by
  simp only [lookupLoopF, h, if_neg hr]

/-- Zeta-reduced unfolding of `Lookup`. -/
theorem Lookup_eq (F : Forest) (tid : Nat) (line : Str) :
    Lookup F tid line =
      if (nextField (stripLeadingWhitespace line)).1 = [] then .error .notFound
      else lookupFinish (lookupLoopF F
        ((nextField (stripLeadingWhitespace line)).2.length + 1)
        (treeAt F tid).pt
        (nextField (stripLeadingWhitespace line)).1
        (nextField (stripLeadingWhitespace line)).2) := rfl

/-! ## Claim theorems -/

/-- C1: for every tree and every input line, whenever `Lookup` resolves a
field to a Command node, the lookup terminates successfully with that
Command regardless of how much input remains, and all remaining text after
the matched field is tokenized (quote-aware, whitespace-delimited, via
`collectArgs`, the embedding of the source's argument loop, which emits
fields in original left-to-right order) into the argument list returned
alongside the Command. -/
theorem lookup_command_stops (F : Forest) (pt : List (Str × NodeRef))
    (field remain : Str) (cid fuel : Nat)
    (h : ptFindValue pt field = .ok (.cmd cid)) :
    lookupLoopF F (fuel+1) pt field remain = .ok (.cmd cid, remain) ∧
    lookupFinish (lookupLoopF F (fuel+1) pt field remain) =
      .ok (.cmd cid, collectArgs remain) ∧
    (∀ tid line, nextField (stripLeadingWhitespace line) = (field, remain) →
      field ≠ [] → (treeAt F tid).pt = pt →
      Lookup F tid line = .ok (.cmd cid, collectArgs remain)) := by
  have h1 : lookupLoopF F (fuel+1) pt field remain = .ok (.cmd cid, remain) :=
    lookupLoopF_cmd F fuel pt field remain cid h
  refine ⟨h1, ?_, ?_⟩
  · rw [h1]; rfl
  · intro tid line hnf hne hpt
    rw [Lookup_eq, hnf]
    rw [if_neg hne, hpt]
    rw [lookupLoopF_cmd F remain.length pt field remain cid h]
    rfl

/-- Witness for C1 on a concrete forest: in the `file` subtree of
`sampleForest` the prefix `op` resolves to the command `open` (id 0), and
the loop stops there with the remaining text `x y` intact. -/
theorem lookup_command_stops_witness :
    ptFindValue (treeAt sampleForest 1).pt (strChars "op") = .ok (.cmd 0) ∧
    lookupLoopF sampleForest (0+1) (treeAt sampleForest 1).pt (strChars "op")
      (strChars "x y") = .ok (.cmd 0, strChars "x y") :=
  ⟨rfl, (lookup_command_stops sampleForest (treeAt sampleForest 1).pt
    (strChars "op") (strChars "x y") 0 0 rfl).1⟩

/-- C2: for every tree and every input line, whenever `Lookup` resolves a
field to a subtree Tree node: if no input remains the lookup terminates
successfully with that Tree and an empty argument list; if input remains
the next field is consumed from the remainder and resolved against that
subtree's own prefix index, recursing to arbitrary depth. -/
theorem lookup_subtree_step (F : Forest) (pt : List (Str × NodeRef))
    (field remain : Str) (tid fuel : Nat)
    (h : ptFindValue pt field = .ok (.tree tid)) :
    (remain = [] →
      lookupLoopF F (fuel+1) pt field remain = .ok (.tree tid, []) ∧
      lookupFinish (lookupLoopF F (fuel+1) pt field remain) =
        .ok (.tree tid, ([] : List Str))) ∧
    (remain ≠ [] →
      lookupLoopF F (fuel+1) pt field remain =
        lookupLoopF F fuel (treeAt F tid).pt (nextField remain).1 (nextField remain).2) := by
  constructor
  · intro hr
    subst hr
    have h1 := lookupLoopF_tree_nil F fuel pt field tid h
    exact ⟨h1, by rw [h1]; rfl⟩
  · intro hr
    exact lookupLoopF_tree_step F fuel pt field remain tid h hr

/-- Witness for C2 on a concrete forest: at the root of `sampleForest` the
field `file` resolves to subtree 1; with no remaining input the loop stops
there with no arguments, and with remaining input `open` it descends into
the subtree's own prefix index. -/
theorem lookup_subtree_step_witness :
    lookupLoopF sampleForest (0+1) (treeAt sampleForest 0).pt (strChars "file") [] =
      .ok (.tree 1, []) ∧
    lookupLoopF sampleForest (4+1) (treeAt sampleForest 0).pt (strChars "file")
      (strChars "open") =
      lookupLoopF sampleForest 4 (treeAt sampleForest 1).pt
        (nextField (strChars "open")).1 (nextField (strChars "open")).2 :=
  ⟨((lookup_subtree_step sampleForest (treeAt sampleForest 0).pt (strChars "file")
      [] 1 0 rfl).1 rfl).1,
   (lookup_subtree_step sampleForest (treeAt sampleForest 0).pt (strChars "file")
      (strChars "open") 1 4 rfl).2 (by decide)⟩

/-- C7: for every string beginning with a double quote, `nextField` returns
everything strictly between the opening quote and the next closing quote as
the field, with the remainder starting after the closing quote with leading
whitespace stripped; with no closing quote the rest of the string is the
field and the remainder is empty, with no error for the malformed quoting;
in particular `nextField "\"a b\" c"` yields field `a b` and remainder
`c`. -/
theorem nextField_quoted :
    (∀ a b : Str, '"' ∉ a →
      nextField ('"' :: (a ++ '"' :: b)) = (a, stripLeadingWhitespace b)) ∧
    (∀ a : Str, '"' ∉ a → nextField ('"' :: a) = (a, [])) ∧
    nextField (strChars "\"a b\" c") = (strChars "a b", strChars "c") := by
  refine ⟨?_, ?_, by decide⟩
  · intro a b ha
    have hall : ∀ x ∈ a, (x != '"') = true := by
      intro x hx
      rw [bne_iff_ne]
      exact fun hxq => ha (hxq ▸ hx)
    have hq : (('"' : Char) != '"') = false := by decide
    simp only [nextField, if_pos rfl]
    rw [dropWhile_append_all _ hall, takeWhile_append_all _ hall]
    simp only [List.dropWhile, List.takeWhile, hq, List.append_nil]
    simp
  · intro a ha
    have hall : ∀ x ∈ a, (x != '"') = true := by
      intro x hx
      rw [bne_iff_ne]
      exact fun hxq => ha (hxq ▸ hx)
    simp only [nextField, if_pos rfl]
    rw [dropWhile_all hall]
    simp

/-- Witness for C7: the quoted-field clauses applied to concrete strings. -/
theorem nextField_quoted_witness :
    nextField ('"' :: (strChars "a b" ++ '"' :: strChars " c")) =
      (strChars "a b", strChars "c") ∧
    nextField ('"' :: strChars "a b") = (strChars "a b", []) :=
  ⟨nextField_quoted.1 (strChars "a b") (strChars " c") (by decide),
   nextField_quoted.2.1 (strChars "a b") (by decide)⟩

/-- C8: for every tree, `Lookup` applied to a line whose first tokenized
field is empty — in particular the empty string or a line of only spaces
and tabs — fails with the NotFound error and returns no node. -/
theorem lookup_empty_field_notFound (F : Forest) (tid : Nat) (line : Str) :
    ((nextField (stripLeadingWhitespace line)).1 = [] →
      Lookup F tid line = .error .notFound) ∧
    ((∀ c ∈ line, c = ' ' ∨ c = '\t') → Lookup F tid line = .error .notFound) := by
  have main : (nextField (stripLeadingWhitespace line)).1 = [] →
      Lookup F tid line = .error .notFound := by
    intro h
    rw [Lookup_eq, if_pos h]
  refine ⟨main, ?_⟩
  intro h
  apply main
  have hstrip : stripLeadingWhitespace line = [] := by
    apply dropWhile_all
    intro c hc
    rcases h c hc with h' | h' <;> simp [isSpaceTab, h']
  rw [hstrip]
  rfl

/-- Witness for C8: a line of spaces and tabs fails with NotFound on a
concrete forest. -/
theorem lookup_empty_field_notFound_witness :
    Lookup sampleForest 0 (strChars " \t ") = .error .notFound ∧
    Lookup sampleForest 0 [] = .error .notFound :=
  ⟨(lookup_empty_field_notFound sampleForest 0 (strChars " \t ")).2 (by decide),
   (lookup_empty_field_notFound sampleForest 0 []).2 (by decide)⟩

/-- C6 counterexample: `nextField` does not strip leading whitespace itself.
On the input `" a"` (a space followed by the word `a`) it returns the empty
field (with remainder `a`), not the word `a` as the claim states. -/
theorem nextField_no_strip_cex :
    nextField [' ', 'a'] = ([], ['a']) ∧ (nextField [' ', 'a']).1 ≠ ['a'] := by
  constructor
  · rfl
  · intro h
    simp [nextField, isSpaceTab, List.dropWhile, List.takeWhile] at h

/-- C6 amended: `nextField` itself does not strip leading whitespace; the
stripping is done by its callers through `stripLeadingWhitespace` (every
call site passes a pre-stripped string).  For any input consisting of one
or more spaces/tabs followed by a non-whitespace word (not beginning with a
double quote), the composition `nextField (stripLeadingWhitespace s)`
returns that word as the field. -/
theorem nextField_strip_word (ws word : Str)
    (hws : ∀ c ∈ ws, c = ' ' ∨ c = '\t')
    (hw : word ≠ [])
    (hwc : ∀ c ∈ word, c ≠ ' ' ∧ c ≠ '\t')
    (hq : word.head? ≠ some '"') :
    nextField (stripLeadingWhitespace (ws ++ word)) = (word, []) := by
  have hwsb : ∀ c ∈ ws, isSpaceTab c = true := by
    intro c hc
    rcases hws c hc with h' | h' <;> simp [isSpaceTab, h']
  have hstrip : stripLeadingWhitespace (ws ++ word) = word := by
    rw [stripLeadingWhitespace, dropWhile_append_all _ hwsb]
    cases word with
    | nil => rfl
    | cons c cs =>
      have hc : isSpaceTab c = false := by
        have := hwc c (by simp)
        simp [isSpaceTab, this.1, this.2]
      simp [List.dropWhile, hc]
  rw [hstrip]
  cases word with
  | nil => exact absurd rfl hw
  | cons c cs =>
    have hcq : c ≠ '"' := by
      intro hc
      exact hq (by simp [hc])
    have hall : ∀ x ∈ c :: cs, (!(isSpaceTab x)) = true := by
      intro x hx
      have := hwc x hx
      simp [isSpaceTab, this.1, this.2]
    simp only [nextField, if_neg hcq]
    rw [dropWhile_all hall]

/-- Witness for C6's amended claim: one space followed by the word `ab`. -/
theorem nextField_strip_word_witness :
    nextField (stripLeadingWhitespace ([' '] ++ strChars "ab")) = (strChars "ab", []) :=
  nextField_strip_word [' '] (strChars "ab") (by decide) (by decide) (by decide)
    (by decide)

/-- C10: `AddShortcut` rejects any shortcut string that is not exactly one
whitespace-delimited field (the empty string, a whitespace-only string, or
a string with interior whitespace), returning the `invalid shortcut` error
and leaving the forest — every tree's prefix index and every command's
shortcut list — unchanged. -/
theorem addShortcut_invalid (F : Forest) (tid : Nat) (shortcut target : Str)
    (h : (goFields shortcut).length ≠ 1) :
    AddShortcut F tid shortcut target = .error .invalidShortcut ∧
    applyShortcut F ⟨tid, shortcut, target⟩ = F := by
  have h1 : AddShortcut F tid shortcut target = .error .invalidShortcut := by
    unfold AddShortcut
    rw [if_pos h]
  refine ⟨h1, ?_⟩
  unfold applyShortcut
  rw [h1]

/-- Witness for C10: a shortcut with an interior space is rejected and the
concrete forest is unchanged. -/
theorem addShortcut_invalid_witness :
    (goFields (strChars "a b")).length ≠ 1 ∧
    AddShortcut sampleForest 0 (strChars "a b") (strChars "file open") =
      .error .invalidShortcut ∧
    applyShortcut sampleForest ⟨0, strChars "a b", strChars "file open"⟩ =
      sampleForest :=
  ⟨by decide,
   (addShortcut_invalid sampleForest 0 (strChars "a b") (strChars "file open")
     (by decide)).1,
   (addShortcut_invalid sampleForest 0 (strChars "a b") (strChars "file open")
     (by decide)).2⟩

/-- C4 counterexample: in the concrete forest `sampleForest` the target path
`file` resolves (via the lookup engine) to the subtree Tree node 1, yet
`AddShortcut("f", "file")` does not succeed: it fails with NotFound, because
`AddShortcut` resolves its target with `LookupCommand`, which rejects
subtree results.  A shortcut can therefore not dispatch to a Tree. -/
theorem addShortcut_tree_target_cex :
    Lookup sampleForest 0 (strChars "file") = .ok (.tree 1, []) ∧
    AddShortcut sampleForest 0 (strChars "f") (strChars "file") =
      .error .notFound := ⟨rfl, rfl⟩

/-- C4 amended: for every target path that resolves (via the lookup engine)
to a subtree Tree node, `AddShortcut` (called with a well-formed one-field
shortcut) fails with the NotFound error and leaves the forest unchanged;
shortcuts may dispatch only to Commands. -/
theorem addShortcut_tree_target_notFound (F : Forest) (tid : Nat)
    (shortcut target : Str) (tid' : Nat) (args : List Str)
    (hfield : (goFields shortcut).length = 1)
    (h : Lookup F tid target = .ok (.tree tid', args)) :
    AddShortcut F tid shortcut target = .error .notFound ∧
    applyShortcut F ⟨tid, shortcut, target⟩ = F := by
  have h1 : AddShortcut F tid shortcut target = .error .notFound := by
    unfold AddShortcut
    rw [if_neg (by omega)]
    unfold LookupCommand
    rw [h]
  refine ⟨h1, ?_⟩
  unfold applyShortcut
  rw [h1]

/-- Witness for C4's amended claim on the concrete forest. -/
theorem addShortcut_tree_target_notFound_witness :
    AddShortcut sampleForest 0 (strChars "f") (strChars "file") =
      .error .notFound ∧
    applyShortcut sampleForest ⟨0, strChars "f", strChars "file"⟩ = sampleForest :=
  ⟨(addShortcut_tree_target_notFound sampleForest 0 (strChars "f") (strChars "file")
      1 [] (by decide) rfl).1,
   (addShortcut_tree_target_notFound sampleForest 0 (strChars "f") (strChars "file")
      1 [] (by decide) rfl).2⟩

/-- C5: whenever the autocomplete loop finds more than one candidate key
for the current field at the current level, it returns the empty list if
typed input remains after that field, and otherwise returns every candidate
key prefixed by the path accumulated so far, sorted lexicographically by
full candidate path (the candidates come sorted by key from the prefix
index and share the accumulated-path prefix). -/
theorem autocomplete_ambiguous (F : Forest) (pt : List (Str × NodeRef))
    (acc field remain : Str) (fuel : Nat)
    (h : 1 < (ptFindKeyValues pt field).length) :
    (remain ≠ [] → autocompleteLoopF F (fuel+1) pt acc field remain = []) ∧
    (remain = [] →
      autocompleteLoopF F (fuel+1) pt acc field remain =
        (ptFindKeyValues pt field).map (fun e => acc ++ e.1) ∧
      chainLe strLe ((ptFindKeyValues pt field).map (fun e => acc ++ e.1)) = true) := by
  have hsorted : chainLe strLe ((ptFindKeyValues pt field).map (fun e => acc ++ e.1)) =
      true := by
    refine chainLe_map keyLe strLe _ ?_ _ (ptFindKeyValues_sorted pt field)
    intro a b hab
    rw [strLe_append_left]
    exact hab
  cases hm : ptFindKeyValues pt field with
  | nil => rw [hm] at h; simp at h
  | cons m rest =>
    cases rest with
    | nil => rw [hm] at h; simp at h
    | cons m' rest' =>
      constructor
      · intro hr
        simp only [autocompleteLoopF, hm]
        rw [if_pos (by simp), if_pos hr]
      · intro hr
        subst hr
        constructor
        · simp only [autocompleteLoopF, hm]
          rw [if_pos (by simp), if_neg (by simp)]
        · rw [hm] at hsorted
          exact hsorted

/-- Witness for C5: the empty field in the `file` subtree of `sampleForest`
has the two candidates `close` and `open`; with no remaining input both are
suggested, prefixed by the accumulated path `file ` and sorted. -/
theorem autocomplete_ambiguous_witness :
    1 < (ptFindKeyValues (treeAt sampleForest 1).pt []).length ∧
    autocompleteLoopF sampleForest (0+1) (treeAt sampleForest 1).pt
      (strChars "file ") [] [] =
      (ptFindKeyValues (treeAt sampleForest 1).pt []).map
        (fun e => strChars "file " ++ e.1) :=
  ⟨by decide,
   ((autocomplete_ambiguous sampleForest (treeAt sampleForest 1).pt
      (strChars "file ") [] [] 0 (by decide)).2 rfl).1⟩

theorem mem_set_cases {α : Type} {l : List α} {i : Nat} {a x : α}
    (h : x ∈ l.set i a) : x = a ∨ x ∈ l := by
  induction l generalizing i with
  | nil => simp [List.set] at h
  | cons y ys ih =>
    cases i with
    | zero =>
      simp only [List.set] at h
      rcases List.mem_cons.mp h with h' | h'
      · exact Or.inl h'
      · exact Or.inr (List.mem_cons_of_mem _ h')
    | succ j =>
      simp only [List.set] at h
      rcases List.mem_cons.mp h with h' | h'
      · exact Or.inr (h' ▸ List.mem_cons_self _ _)
      · rcases ih h' with h'' | h''
        · exact Or.inl h''
        · exact Or.inr (List.mem_cons_of_mem _ h'')

theorem mem_of_get?_some {α : Type} {l : List α} {i : Nat} {a : α}
    (h : l.get? i = some a) : a ∈ l := by
  induction l generalizing i with
  | nil => simp [List.get?] at h
  | cons y ys ih =>
    cases i with
    | zero =>
      simp only [List.get?, Option.some.injEq] at h
      exact h ▸ List.mem_cons_self _ _
    | succ j => exact List.mem_cons_of_mem _ (ih h)

/-- A successful `AddShortcut` preserves sortedness of every command's
shortcut list. -/
theorem sortedForest_addShortcut {F F' : Forest} {tid : Nat} {s t : Str}
    (hF : SortedForest F) (h : AddShortcut F tid s t = .ok F') :
    SortedForest F' := by
  unfold AddShortcut at h
  by_cases hg : (goFields s).length ≠ 1
  · rw [if_pos hg] at h
    simp at h
  · rw [if_neg hg] at h
    cases hlc : LookupCommand F tid t with
    | error e => rw [hlc] at h; simp at h
    | ok p =>
      rw [hlc] at h
      obtain ⟨cid, args⟩ := p
      simp only [Except.ok.injEq] at h
      subst h
      intro c hc
      simp only [modifyCmd] at hc
      cases hg2 : F.cmds.get? cid with
      | none => rw [hg2] at hc; exact hF c hc
      | some c0 =>
        rw [hg2] at hc
        rcases mem_set_cases hc with h' | h'
        · subst h'
          exact sortedStr_insertShortcut s _ (hF c0 (mem_of_get?_some hg2))
        · exact hF c h'

theorem sortedForest_applyShortcut (F : Forest) (op : ShortcutOp)
    (h : SortedForest F) : SortedForest (applyShortcut F op) := by
  unfold applyShortcut
  cases hA : AddShortcut F op.tid op.shortcut op.target with
  | ok F' => exact sortedForest_addShortcut h hA
  | error e => exact h

theorem sortedForest_applyShortcuts (ops : List ShortcutOp) :
    ∀ F : Forest, SortedForest F → SortedForest (applyShortcuts F ops) := by
  induction ops with
  | nil => intro F h; exact h
  | cons op ops ih =>
    intro F h
    exact ih _ (sortedForest_applyShortcut F op h)

/-- C9: starting from a forest in which every command's shortcut list is in
lexicographic order, every `AddShortcut` call — and hence every sequence of
`AddShortcut` calls — preserves the invariant: each shortcut is inserted at
its sorted position, so the lists are sorted between any two registration
calls. -/
theorem shortcuts_sorted_invariant (F : Forest) (h : SortedForest F) :
    (∀ op, SortedForest (applyShortcut F op)) ∧
    (∀ ops, SortedForest (applyShortcuts F ops)) :=
  ⟨fun op => sortedForest_applyShortcut F op h,
   fun ops => sortedForest_applyShortcuts ops F h⟩

/-- Witness for C9: registering the shortcuts `zz` then `aa` on the same
command of the concrete forest keeps its shortcut list sorted (`aa` is
inserted before `zz`). -/
theorem shortcuts_sorted_invariant_witness :
    SortedForest sampleForest ∧
    SortedForest (applyShortcuts sampleForest
      [⟨0, strChars "zz", strChars "file open"⟩,
       ⟨0, strChars "aa", strChars "file open"⟩]) :=
  ⟨by decide,
   (shortcuts_sorted_invariant sampleForest (by decide)).2
     [⟨0, strChars "zz", strChars "file open"⟩,
      ⟨0, strChars "aa", strChars "file open"⟩]⟩

/-- C3: in every forest whose root tree resolves the field `file` to a
subtree and whose subtree resolves `open` to a command — with the shortcut
key `f` not yet taken at the root, duplicate keys being a caller error —
`AddShortcut("f", "file open")` succeeds, and `Lookup("f a b")` at the root
returns the same Command node (the same heap reference) as
`Lookup("file open a b")`, with arguments `["a", "b"]` in both cases. -/
theorem shortcut_lookup_equiv (F : Forest) (rt fid cid : Nat)
    (hrt : rt < F.trees.length)
    (hfile : ptFindValue (treeAt F rt).pt (strChars "file") = .ok (.tree fid))
    (hopen : ptFindValue (treeAt F fid).pt (strChars "open") = .ok (.cmd cid))
    (hfresh : ∀ e ∈ (treeAt F rt).pt, (e.1 == strChars "f") = false) :
    ∃ F', AddShortcut F rt (strChars "f") (strChars "file open") = .ok F' ∧
      Lookup F' rt (strChars "f a b") = .ok (.cmd cid, [strChars "a", strChars "b"]) ∧
      Lookup F' rt (strChars "file open a b") =
        .ok (.cmd cid, [strChars "a", strChars "b"]) := by
  have hlu : Lookup F rt (strChars "file open") = .ok (.cmd cid, []) := by
    have step1 : Lookup F rt (strChars "file open") =
        lookupFinish (lookupLoopF F ((strChars "open").length + 1) (treeAt F rt).pt
          (strChars "file") (strChars "open")) := rfl
    rw [step1]
    rw [lookupLoopF_tree_step F ((strChars "open").length) _ _ _ fid hfile (by decide)]
    have step2 : lookupFinish (lookupLoopF F (strChars "open").length (treeAt F fid).pt
          (nextField (strChars "open")).1 (nextField (strChars "open")).2) =
        lookupFinish (lookupLoopF F (3+1) (treeAt F fid).pt (strChars "open") []) := rfl
    rw [step2]
    rw [lookupLoopF_cmd F 3 _ _ _ cid hopen]
    rfl
  have hlc : LookupCommand F rt (strChars "file open") = .ok (cid, []) := by
    unfold LookupCommand
    rw [hlu]
  let t0 : Tree := treeAt F rt
  let newT : Tree := { t0 with pt := t0.pt ++ [(strChars "f", NodeRef.cmd cid)] }
  let F' : Forest :=
    { cmds := modifyCmd F.cmds cid
        (fun c => { c with shortcuts := insertShortcut (strChars "f") c.shortcuts }),
      trees := F.trees.set rt newT }
  have htA : treeAt F' rt = newT := treeAt_set_self F _ rt newT hrt
  refine ⟨F', ?_, ?_, ?_⟩
  · unfold AddShortcut
    rw [if_neg (by decide)]
    rw [hlc]
  · have step3 : Lookup F' rt (strChars "f a b") =
        lookupFinish (lookupLoopF F' ((strChars "a b").length + 1) (treeAt F' rt).pt
          (strChars "f") (strChars "a b")) := rfl
    rw [step3, htA]
    have hfind : ptFindValue newT.pt (strChars "f") = .ok (.cmd cid) := by
      show ptFindValue (t0.pt ++ [(strChars "f", NodeRef.cmd cid)]) (strChars "f") =
        .ok (.cmd cid)
      exact ptFindValue_append_exact t0.pt _ _ (by decide) hfresh
    rw [lookupLoopF_cmd F' ((strChars "a b").length) _ _ _ cid hfind]
    rfl
  · have step4 : Lookup F' rt (strChars "file open a b") =
        lookupFinish (lookupLoopF F' ((strChars "open a b").length + 1) (treeAt F' rt).pt
          (strChars "file") (strChars "open a b")) := rfl
    rw [step4, htA]
    have hfile' : ptFindValue newT.pt (strChars "file") = .ok (.tree fid) := by
      show ptFindValue (t0.pt ++ [(strChars "f", NodeRef.cmd cid)]) (strChars "file") =
        .ok (.tree fid)
      rw [ptFindValue_append_irrel t0.pt _ _
        ((by decide : (strChars "f" == strChars "file") = false))
        ((by decide : List.isPrefixOf (strChars "file") (strChars "f") = false))]
      exact hfile
    rw [lookupLoopF_tree_step F' ((strChars "open a b").length) _ _ _ fid hfile'
      (by decide)]
    have hopen' : ptFindValue (treeAt F' fid).pt (strChars "open") = .ok (.cmd cid) := by
      by_cases hfr : rt = fid
      · subst hfr
        rw [htA]
        show ptFindValue (t0.pt ++ [(strChars "f", NodeRef.cmd cid)]) (strChars "open") =
          .ok (.cmd cid)
        rw [ptFindValue_append_irrel t0.pt _ _
          ((by decide : (strChars "f" == strChars "open") = false))
          ((by decide : List.isPrefixOf (strChars "open") (strChars "f") = false))]
        exact hopen
      · have hne : treeAt F' fid = treeAt F fid := treeAt_set_ne F _ rt fid newT hfr
        rw [hne]
        exact hopen
    have step5 : lookupFinish (lookupLoopF F' (strChars "open a b").length
          (treeAt F' fid).pt (nextField (strChars "open a b")).1
          (nextField (strChars "open a b")).2) =
        lookupFinish (lookupLoopF F' (7+1) (treeAt F' fid).pt (strChars "open")
          (strChars "a b")) := rfl
    rw [step5]
    rw [lookupLoopF_cmd F' 7 _ _ _ cid hopen']
    rfl

/-- Witness for C3 on the concrete forest: `file` resolves to subtree 1 at
the root, `open` to command 0 in the subtree, `f` is fresh, and the two
lookups agree. -/
theorem shortcut_lookup_equiv_witness :
    (0 < sampleForest.trees.length ∧
      ptFindValue (treeAt sampleForest 0).pt (strChars "file") = .ok (.tree 1) ∧
      ptFindValue (treeAt sampleForest 1).pt (strChars "open") = .ok (.cmd 0)) ∧
    ∃ F', AddShortcut sampleForest 0 (strChars "f") (strChars "file open") = .ok F' ∧
      Lookup F' 0 (strChars "f a b") = .ok (.cmd 0, [strChars "a", strChars "b"]) ∧
      Lookup F' 0 (strChars "file open a b") =
        .ok (.cmd 0, [strChars "a", strChars "b"]) :=
  ⟨⟨by decide, rfl, rfl⟩,
   shortcut_lookup_equiv sampleForest 0 1 0 (by decide) rfl rfl (by decide)⟩

end Cmd
